import Mathlib

/-!
Verification of the LSB steganography codec in
`client/src/lib/steganography.ts` (SteganoTool).

The pixel buffer is modelled as a flat `List Nat` of 8-bit channel samples
(R,G,B,A interleaved, row-major), messages and passwords as `List Nat` of
character codes, and the fallible encode / nullable decode as pure functions.
The progress callbacks of the source have no effect on the returned data and
are omitted.  Every loop of the source is rendered as a structural recursion
over the sample list that visits the samples in exactly the source's order.
-/

namespace Stegano

/-- Truncation of an integer to a signed 32-bit value, as JavaScript's
`ToInt32` abstract operation (used by `<<` and `&`). -/
def toInt32 (n : Int) : Int :=
  Int.emod (n + 2147483648) 4294967296 - 2147483648

/-- One iteration of `simpleHash`'s loop:
`hash = ((hash << 5) - hash) + char; hash = hash & hash;`.
`hash << 5` truncates the shifted value to int32, the subtraction and the
addition are exact, and `hash & hash` truncates the sum back to int32. -/
def hashStep (hash : Int) (char : Nat) : Int :=
  toInt32 (toInt32 (hash * 32) - hash + char)

/-- `simpleHash(str)`: rolling 32-bit hash of the password, then
`Math.abs`. -/
def simpleHash (str : List Nat) : Nat :=
  (str.foldl hashStep 0).natAbs

/-- Binary digits of `n`, most significant first, as JavaScript's
`n.toString(2)` produces them (empty for the recursion's base; see
`natToBin`).  The fuel argument makes the recursion structural; any fuel
`≥ n` gives the digits of `n`. -/
def bitsOfAux : Nat → Nat → List Nat
  | _, 0 => []
  | 0, _ + 1 => []
  | fuel + 1, n + 1 => bitsOfAux fuel ((n + 1) / 2) ++ [(n + 1) % 2]

/-- `n.toString(2)` as a list of binary digits, most significant first
(`"0"` for zero). -/
def natToBin (n : Nat) : List Nat :=
  if n = 0 then [0] else bitsOfAux n n

/-- `String.prototype.padStart(width, '0')`: prepend zeros up to `width`
(no-op when the list is already at least that long). -/
def padStartZeros (width : Nat) (l : List Nat) : List Nat :=
  List.replicate (width - l.length) 0 ++ l

/-- One character's contribution in `stringToBinary`:
`char.charCodeAt(0).toString(2).padStart(8, '0')`. -/
def charBits (c : Nat) : List Nat :=
  padStartZeros 8 (natToBin c)

/-- `stringToBinary(str)`: concatenation of each character's 8-bit
(or longer, for codes ≥ 256) binary expansion, most significant bit
first. -/
def stringToBinary (str : List Nat) : List Nat :=
  str.flatMap charBits

/-- Split a bit list into chunks, 8 bits each, the final chunk possibly
shorter, as the regex `.{1,8}` does.  Fuel-indexed to keep the recursion
structural; `chunks8` supplies fuel equal to the list length. -/
def chunks8Aux : Nat → List Nat → List (List Nat)
  | _, [] => []
  | 0, _ :: _ => []
  | fuel + 1, l => l.take 8 :: chunks8Aux fuel (l.drop 8)

/-- `binary.match(/.{1,8}/g)`: the successive 8-bit (final one possibly
shorter) chunks of a bit list. -/
def chunks8 (l : List Nat) : List (List Nat) :=
  chunks8Aux l.length l

/-- `parseInt(chunk, 2)`: the value of a most-significant-bit-first digit
list. -/
def binVal (bits : List Nat) : Nat :=
  bits.foldl (fun acc b => 2 * acc + b) 0

/-- `binaryToString(binary)`: cut the bit list into chunks of up to 8 bits
and turn each chunk into one character code via `parseInt(chunk, 2)`. -/
def binaryToString (binary : List Nat) : List Nat :=
  (chunks8 binary).map binVal

/-- `calculateCapacity(width, height)`: `3` usable bits per pixel, minus a
fixed 64-bit metadata reservation, divided by 8 with `Math.floor` (which
rounds toward negative infinity; the result is negative for tiny images). -/
def calculateCapacity (width height : Nat) : Int :=
  let totalBits : Int := (width : Int) * height * 3
  let metadataBits : Int := 64
  let availableBits := totalBits - metadataBits
  Int.fdiv availableBits 8

/-- The per-byte XOR mask applied in both `encodeMessage` and
`decodeMessage`: character `i` is XORed with `(key + i) % 256`.  `i` is the
character's zero-based position; the recursion carries it explicitly. -/
def maskFrom (key : Nat) : Nat → List Nat → List Nat
  | _, [] => []
  | i, c :: rest => (c ^^^ (key + i) % 256) :: maskFrom key (i + 1) rest

/-- `fullMessage` in `encodeMessage`: the message, XOR-masked when a
password is present and non-empty (JavaScript's `if (password)` is false
for both `undefined` and the empty string). -/
def fullMessageOf (message : List Nat) (password : Option (List Nat)) : List Nat :=
  match password with
  | none => message
  | some p => if p.isEmpty then message else maskFrom (simpleHash p) 0 message

/-- One LSB write: `data[pixelIndex] = (data[pixelIndex] & 0xFE) | bit`. -/
def setLSB (v b : Nat) : Nat :=
  (v &&& 0xFE) ||| b

/-- The encode loop: walk the samples in order (`j` is the running sample
index), skip every alpha sample (`j % 4 == 3`), and write the next
unconsumed frame bit into each R/G/B sample's LSB; stop as soon as the
frame bits are exhausted, leaving the remaining samples untouched. -/
def encodeLoop : List Nat → Nat → List Nat → List Nat
  | [], _, _ => []
  | d, _, [] => d
  | v :: rest, j, b :: bs =>
    if j % 4 = 3 then v :: encodeLoop rest (j + 1) (b :: bs)
    else setLSB v b :: encodeLoop rest (j + 1) bs

/-- `encodeMessage(imageFile, message, password?)`, after the (excluded)
canvas I/O has produced the flat sample buffer `data`.  Returns the buffer
as it stands when the function exits together with the thrown error, if
any: on the capacity failure the original buffer is returned untouched,
since the source throws before its write loop runs. -/
def encodeMessage (data : List Nat) (width height : Nat) (message : List Nat)
    (password : Option (List Nat)) : List Nat × Option String :=
  let fullMessage := fullMessageOf message password
  let delimiter : List Nat := [0, 0, 0, 0]
  let messageWithDelimiter := fullMessage ++ delimiter
  let capacity := calculateCapacity width height
  if (messageWithDelimiter.length : Int) > capacity then
    (data, some ("Message too long. Maximum capacity: " ++ toString capacity ++ " characters"))
  else
    let lengthBinary := padStartZeros 32 (natToBin message.length)
    let fullBinary := lengthBinary ++ stringToBinary messageWithDelimiter
    (encodeLoop data 0 fullBinary, none)

/-- The decoder's header loop: collect the LSBs of the first `needed`
non-alpha samples (fewer when the buffer runs out), `j` being the running
sample index. -/
def readBitsFrom : List Nat → Nat → Nat → List Nat
  | [], _, _ => []
  | v :: rest, j, needed =>
    match needed with
    | 0 => []
    | m + 1 =>
      if j % 4 = 3 then readBitsFrom rest (j + 1) (m + 1)
      else v % 2 :: readBitsFrom rest (j + 1) m

/-- The decoder's payload loop: starting from sample index `j` (the source
starts it at `Math.floor(32 / 3) * 4 = 40`), collect the LSB of each
non-alpha sample whose global bit index `Math.floor(pixelIndex/4)*3 +
channel` has reached 32 (the source's `binaryIndex`, which stays 32
throughout), until `needed` bits are collected or the buffer ends. -/
def readPayloadFrom : List Nat → Nat → Nat → List Nat
  | [], _, _ => []
  | v :: rest, j, needed =>
    match needed with
    | 0 => []
    | m + 1 =>
      if j % 4 = 3 then readPayloadFrom rest (j + 1) (m + 1)
      else if 32 ≤ (j / 4) * 3 + j % 4 then v % 2 :: readPayloadFrom rest (j + 1) m
      else readPayloadFrom rest (j + 1) (m + 1)

/-- `messageLength` in `decodeMessage`: `parseInt` of the first 32 stream
bits.  When the buffer is empty the source's `parseInt('')` is `NaN`, which
fails both gate comparisons and then yields an empty extraction and a
`null` return; `binVal [] = 0` takes the gate's `null` branch directly, so
the observable result is identical. -/
def declaredLength (data : List Nat) : Nat :=
  binVal (readBitsFrom data 0 32)

/-- The decoded (still masked, if a password was used) message: the payload
bits, read starting at sample index `Math.floor(32 / 3) * 4`, converted
back to character codes. -/
def rawMessage (data : List Nat) : List Nat :=
  binaryToString (readPayloadFrom (data.drop ((32 / 3) * 4)) ((32 / 3) * 4) (declaredLength data * 8))

/-- The decoded message after the optional unmasking step (the identical
XOR map as encoding; the source's try/catch around it is dead code, as the
arithmetic cannot throw). -/
def finalMessage (data : List Nat) (password : Option (List Nat)) : List Nat :=
  match password with
  | none => rawMessage data
  | some p => if p.isEmpty then rawMessage data else maskFrom (simpleHash p) 0 (rawMessage data)

/-- `decodeMessage(imageFile, password?)` on the decoded sample buffer:
read the 32-bit length, gate it, extract and unmask the payload, and
return it when non-empty (`null` otherwise). -/
def decodeMessage (data : List Nat) (password : Option (List Nat)) : Option (List Nat) :=
  let messageLength := declaredLength data
  if messageLength ≤ 0 ∨ messageLength > 1000000 then none
  else
    let message := finalMessage data password
    if 0 < message.length then some message else none

/-- The R/G/B LSB bit-stream of a buffer suffix whose first sample has
index `j`: LSBs of the non-alpha samples in order.  This is the
specification-side notion of "stream"; `lsbStream data` is the stream the
wire format is defined over. -/
def streamFrom : List Nat → Nat → List Nat
  | [], _ => []
  | v :: rest, j =>
    if j % 4 = 3 then streamFrom rest (j + 1) else v % 2 :: streamFrom rest (j + 1)

/-- The R/G/B LSB bit-stream of a pixel buffer: bit `t` lives in sample
`4 * (t / 3) + t % 3`. -/
def lsbStream (data : List Nat) : List Nat :=
  streamFrom data 0

/-! ### Basic facts about the bit helpers -/

set_option maxRecDepth 4000 in
theorem setLSB_bounded : ∀ v < 256, ∀ b < 2, setLSB v b = 2 * (v / 2) + b := by
  decide

theorem setLSB_eq_of_lt (v b : Nat) (hv : v < 256) (hb : b < 2) :
    setLSB v b = 2 * (v / 2) + b :=
  setLSB_bounded v hv b hb

theorem binVal_append_singleton (l : List Nat) (b : Nat) :
    binVal (l ++ [b]) = 2 * binVal l + b := by
  simp [binVal, List.foldl_append]

theorem foldl_replicate_zero (k : Nat) :
    List.foldl (fun acc b => 2 * acc + b) 0 (List.replicate k 0) = 0 := by
  induction k with
  | zero => simp
  | succ n ih => simpa [List.replicate_succ] using ih

theorem binVal_replicate_zero_append (k : Nat) (l : List Nat) :
    binVal (List.replicate k 0 ++ l) = binVal l := by
  simp [binVal, List.foldl_append, foldl_replicate_zero]

theorem binVal_bitsOfAux (fuel n : Nat) (h : n ≤ fuel) :
    binVal (bitsOfAux fuel n) = n := by
  induction fuel generalizing n with
  | zero =>
    interval_cases n
    simp [bitsOfAux, binVal]
  | succ f ih =>
    match n with
    | 0 => simp [bitsOfAux, binVal]
    | m + 1 =>
      rw [bitsOfAux, binVal_append_singleton, ih ((m + 1) / 2) (by omega)]
      omega

theorem binVal_natToBin (n : Nat) : binVal (natToBin n) = n := by
  unfold natToBin
  split
  · simp [binVal]; omega
  · exact binVal_bitsOfAux n n le_rfl

theorem bitsOfAux_length (fuel n k : Nat) (h : n < 2 ^ k) :
    (bitsOfAux fuel n).length ≤ k := by
  induction fuel generalizing n k with
  | zero =>
    match n with
    | 0 => simp [bitsOfAux]
    | m + 1 => simp [bitsOfAux]
  | succ f ih =>
    match n with
    | 0 => simp [bitsOfAux]
    | m + 1 =>
      match k with
      | 0 => omega
      | j + 1 =>
        have hhalf : (m + 1) / 2 < 2 ^ j := by
          have hp : 2 ^ (j + 1) = 2 * 2 ^ j := by ring
          omega
        have := ih ((m + 1) / 2) j hhalf
        simp only [bitsOfAux, List.length_append, List.length_cons, List.length_nil]
        omega

theorem bitsOfAux_le_one (fuel n : Nat) : ∀ b ∈ bitsOfAux fuel n, b ≤ 1 := by
  induction fuel generalizing n with
  | zero =>
    match n with
    | 0 => simp [bitsOfAux]
    | m + 1 => simp [bitsOfAux]
  | succ f ih =>
    match n with
    | 0 => simp [bitsOfAux]
    | m + 1 =>
      intro b hb
      rw [bitsOfAux] at hb
      rcases List.mem_append.1 hb with h | h
      · exact ih _ b h
      · simp at h
        omega

theorem natToBin_le_one (n : Nat) : ∀ b ∈ natToBin n, b ≤ 1 := by
  unfold natToBin
  split
  · simp
  · exact bitsOfAux_le_one n n

theorem natToBin_length_le (n k : Nat) (hk : 1 ≤ k) (h : n < 2 ^ k) :
    (natToBin n).length ≤ k := by
  unfold natToBin
  split
  · simpa using hk
  · exact bitsOfAux_length n n k h

theorem padStartZeros_length (width : Nat) (l : List Nat) (h : l.length ≤ width) :
    (padStartZeros width l).length = width := by
  simp [padStartZeros]
  omega

theorem binVal_padStartZeros (width : Nat) (l : List Nat) :
    binVal (padStartZeros width l) = binVal l :=
  binVal_replicate_zero_append _ _

theorem padStartZeros_le_one (width : Nat) (l : List Nat) (h : ∀ b ∈ l, b ≤ 1) :
    ∀ b ∈ padStartZeros width l, b ≤ 1 := by
  intro b hb
  rcases List.mem_append.1 hb with h0 | h0
  · simp at h0
    omega
  · exact h b h0

theorem charBits_length (c : Nat) (h : c < 256) : (charBits c).length = 8 :=
  padStartZeros_length 8 _ (natToBin_length_le c 8 (by omega) (by norm_num; omega))

theorem binVal_charBits (c : Nat) : binVal (charBits c) = c := by
  rw [charBits, binVal_padStartZeros, binVal_natToBin]

theorem charBits_le_one (c : Nat) : ∀ b ∈ charBits c, b ≤ 1 :=
  padStartZeros_le_one 8 _ (natToBin_le_one c)

theorem stringToBinary_length (str : List Nat) (h : ∀ c ∈ str, c < 256) :
    (stringToBinary str).length = 8 * str.length := by
  induction str with
  | nil => simp [stringToBinary]
  | cons c rest ih =>
    have hc : c < 256 := h c (by simp)
    have hrest : ∀ x ∈ rest, x < 256 := fun x hx => h x (by simp [hx])
    simp only [stringToBinary, List.flatMap_cons, List.length_append]
    rw [charBits_length c hc]
    have := ih hrest
    simp only [stringToBinary] at this
    simp [this]
    ring

theorem stringToBinary_le_one (str : List Nat) : ∀ b ∈ stringToBinary str, b ≤ 1 := by
  intro b hb
  simp only [stringToBinary, List.mem_flatMap] at hb
  obtain ⟨c, _, hbc⟩ := hb
  exact charBits_le_one c b hbc

theorem stringToBinary_append (s t : List Nat) :
    stringToBinary (s ++ t) = stringToBinary s ++ stringToBinary t := by
  simp [stringToBinary]

/-! ### Chunking and the bits-to-bytes inverse -/

theorem chunks8Aux_succ (f : Nat) (l : List Nat) (h : l ≠ []) :
    chunks8Aux (f + 1) l = l.take 8 :: chunks8Aux f (l.drop 8) := by
  match l with
  | [] => exact absurd rfl h
  | x :: xs => rfl

theorem chunks8Aux_nil (f : Nat) : chunks8Aux f [] = [] := by
  match f with
  | 0 => rfl
  | _ + 1 => rfl

theorem chunks8Aux_congr (f : Nat) :
    ∀ (g : Nat) (l : List Nat), l.length ≤ f → l.length ≤ g → chunks8Aux f l = chunks8Aux g l := by
  induction f with
  | zero =>
    intro g l hf hg
    match l with
    | [] => rw [chunks8Aux_nil, chunks8Aux_nil]
    | x :: xs => simp at hf
  | succ m ih =>
    intro g l hf hg
    match l with
    | [] => rw [chunks8Aux_nil, chunks8Aux_nil]
    | x :: xs =>
      match g with
      | 0 => simp at hg
      | n + 1 =>
        rw [chunks8Aux_succ m _ (by simp), chunks8Aux_succ n _ (by simp)]
        have hlen : ((x :: xs).drop 8).length = xs.length + 1 - 8 := by simp
        have hf' : (x :: xs).length ≤ m + 1 := hf
        have hg' : (x :: xs).length ≤ n + 1 := hg
        simp only [List.length_cons] at hf' hg'
        rw [ih n ((x :: xs).drop 8) (by omega) (by omega)]

theorem chunks8_cons8 (c rest : List Nat) (hc : c.length = 8) :
    chunks8 (c ++ rest) = c :: chunks8 rest := by
  have hne : c ++ rest ≠ [] := by
    intro h
    have := congrArg List.length h
    simp [hc] at this
  unfold chunks8
  have hlen : (c ++ rest).length = rest.length + 8 := by simp [hc]; omega
  rw [hlen, show rest.length + 8 = (rest.length + 7) + 1 by omega]
  rw [chunks8Aux_succ _ _ hne, List.take_left' hc, List.drop_left' hc]
  rw [chunks8Aux_congr (rest.length + 7) rest.length rest (by omega) le_rfl]

theorem binaryToString_stringToBinary (str : List Nat) (h : ∀ c ∈ str, c < 256) :
    binaryToString (stringToBinary str) = str := by
  induction str with
  | nil => rfl
  | cons c rest ih =>
    have hc : c < 256 := h c (by simp)
    have hrest : ∀ x ∈ rest, x < 256 := fun x hx => h x (by simp [hx])
    have hsplit : stringToBinary (c :: rest) = charBits c ++ stringToBinary rest := by
      simp [stringToBinary]
    rw [hsplit, binaryToString, chunks8_cons8 _ _ (charBits_length c hc), List.map_cons,
      binVal_charBits]
    have := ih hrest
    rw [binaryToString] at this
    rw [this]

theorem binVal_lt_two_pow (l : List Nat) (h : ∀ b ∈ l, b ≤ 1) :
    binVal l < 2 ^ l.length := by
  suffices key : ∀ a, List.foldl (fun acc b => 2 * acc + b) a l < (a + 1) * 2 ^ l.length by
    have := key 0
    simpa [binVal] using this
  induction l with
  | nil => simp
  | cons b rest ih =>
    intro a
    have hb : b ≤ 1 := h b (by simp)
    have hrest : ∀ x ∈ rest, x ≤ 1 := fun x hx => h x (by simp [hx])
    simp only [List.foldl_cons, List.length_cons]
    have := ih hrest (2 * a + b)
    have hle : (2 * a + b + 1) * 2 ^ rest.length ≤ (a + 1) * 2 ^ (rest.length + 1) := by
      have h2 : 2 * a + b + 1 ≤ 2 * (a + 1) := by omega
      calc (2 * a + b + 1) * 2 ^ rest.length ≤ 2 * (a + 1) * 2 ^ rest.length :=
            Nat.mul_le_mul_right _ h2
        _ = (a + 1) * 2 ^ (rest.length + 1) := by ring
    omega

/-! ### The XOR mask -/

theorem maskFrom_length (key : Nat) (i : Nat) (l : List Nat) :
    (maskFrom key i l).length = l.length := by
  induction l generalizing i with
  | nil => rfl
  | cons c rest ih => simp [maskFrom, ih]

theorem maskFrom_involutive (key : Nat) (i : Nat) (l : List Nat) :
    maskFrom key i (maskFrom key i l) = l := by
  induction l generalizing i with
  | nil => rfl
  | cons c rest ih =>
    simp only [maskFrom, List.cons.injEq]
    constructor
    · rw [Nat.xor_assoc, Nat.xor_self, Nat.xor_zero]
    · exact ih (i + 1)

theorem maskFrom_lt (key : Nat) (i : Nat) (l : List Nat) (h : ∀ c ∈ l, c < 256) :
    ∀ c ∈ maskFrom key i l, c < 256 := by
  induction l generalizing i with
  | nil => simp [maskFrom]
  | cons c rest ih =>
    intro x hx
    simp only [maskFrom, List.mem_cons] at hx
    rcases hx with hx | hx
    · subst hx
      have h1 : c < 2 ^ 8 := h c (by simp)
      have h2 : (key + i) % 256 < 2 ^ 8 := Nat.mod_lt _ (by omega)
      exact Nat.xor_lt_two_pow h1 h2
    · exact ih (i + 1) (fun y hy => h y (by simp [hy])) x hx

theorem fullMessageOf_length (message : List Nat) (password : Option (List Nat)) :
    (fullMessageOf message password).length = message.length := by
  cases password with
  | none => rfl
  | some p =>
    by_cases hp : p.isEmpty
    · simp [fullMessageOf, hp]
    · simp [fullMessageOf, hp, maskFrom_length]

/-! ### The LSB bit-stream -/

theorem streamFrom_cons_alpha (v : Nat) (rest : List Nat) (j : Nat) (hj : j % 4 = 3) :
    streamFrom (v :: rest) j = streamFrom rest (j + 1) := by
  simp [streamFrom, hj]

theorem streamFrom_cons_rgb (v : Nat) (rest : List Nat) (j : Nat) (hj : ¬j % 4 = 3) :
    streamFrom (v :: rest) j = v % 2 :: streamFrom rest (j + 1) := by
  simp [streamFrom, hj]

theorem streamFrom_append (l₁ l₂ : List Nat) :
    ∀ j, streamFrom (l₁ ++ l₂) j = streamFrom l₁ j ++ streamFrom l₂ (j + l₁.length) := by
  induction l₁ with
  | nil => simp [streamFrom]
  | cons v rest ih =>
    intro j
    have hcons : (v :: rest) ++ l₂ = v :: (rest ++ l₂) := rfl
    have hlen : j + (v :: rest).length = (j + 1) + rest.length := by
      simp
      omega
    by_cases hj : j % 4 = 3
    · rw [hcons, streamFrom_cons_alpha _ _ _ hj, streamFrom_cons_alpha _ _ _ hj, hlen,
        ih (j + 1)]
    · rw [hcons, streamFrom_cons_rgb _ _ _ hj, streamFrom_cons_rgb _ _ _ hj, hlen,
        ih (j + 1), List.cons_append]

theorem streamFrom_length (l : List Nat) :
    ∀ j, (streamFrom l j).length = l.length - (l.length + j % 4) / 4 := by
  induction l with
  | nil => simp [streamFrom]
  | cons v rest ih =>
    intro j
    have h4 : j % 4 < 4 := Nat.mod_lt _ (by omega)
    have hsucc : (j + 1) % 4 = (j % 4 + 1) % 4 := by omega
    by_cases hj : j % 4 = 3
    · simp only [streamFrom, hj, if_pos, List.length_cons]
      rw [ih (j + 1)]
      omega
    · simp only [streamFrom, hj, if_neg, List.length_cons, if_false]
      rw [ih (j + 1)]
      omega

theorem readBitsFrom_eq_take (l : List Nat) :
    ∀ j n, readBitsFrom l j n = (streamFrom l j).take n := by
  induction l with
  | nil => simp [readBitsFrom, streamFrom]
  | cons v rest ih =>
    intro j n
    match n with
    | 0 =>
      by_cases hj : j % 4 = 3 <;> simp [readBitsFrom, streamFrom, hj]
    | m + 1 =>
      by_cases hj : j % 4 = 3
      · simp only [readBitsFrom, streamFrom, hj, if_pos]
        exact ih (j + 1) (m + 1)
      · simp only [readBitsFrom, streamFrom, hj, if_neg, if_false, List.take_succ_cons]
        rw [ih (j + 1) m]

theorem readPayloadFrom_eq_drop_take (l : List Nat) :
    ∀ j n, readPayloadFrom l j n =
      ((streamFrom l j).drop (32 - ((j / 4) * 3 + min (j % 4) 3))).take n := by
  induction l with
  | nil => simp [readPayloadFrom, streamFrom]
  | cons v rest ih =>
    intro j n
    have h4 : j % 4 < 4 := Nat.mod_lt _ (by omega)
    match n with
    | 0 =>
      have : readPayloadFrom (v :: rest) j 0 = [] := by
        simp [readPayloadFrom]
      rw [this, List.take_zero]
    | m + 1 =>
      by_cases hj : j % 4 = 3
      · have hidx : (j + 1) / 4 * 3 + min ((j + 1) % 4) 3 = j / 4 * 3 + min (j % 4) 3 := by
          omega
        have e1 : readPayloadFrom (v :: rest) j (m + 1) = readPayloadFrom rest (j + 1) (m + 1) := by
          simp [readPayloadFrom, hj]
        rw [e1, streamFrom_cons_alpha _ _ _ hj, ih (j + 1) (m + 1), hidx]
      · by_cases hge : 32 ≤ (j / 4) * 3 + j % 4
        · have hz : 32 - ((j / 4) * 3 + min (j % 4) 3) = 0 := by omega
          have hz' : 32 - ((j + 1) / 4 * 3 + min ((j + 1) % 4) 3) = 0 := by omega
          have e1 : readPayloadFrom (v :: rest) j (m + 1) =
              v % 2 :: readPayloadFrom rest (j + 1) m := by
            simp [readPayloadFrom, hj, hge]
          rw [e1, streamFrom_cons_rgb _ _ _ hj, ih (j + 1) m, hz, hz', List.drop_zero,
            List.drop_zero, List.take_succ_cons]
        · have hstep : (j + 1) / 4 * 3 + min ((j + 1) % 4) 3 = j / 4 * 3 + min (j % 4) 3 + 1 := by
            omega
          have e1 : readPayloadFrom (v :: rest) j (m + 1) =
              readPayloadFrom rest (j + 1) (m + 1) := by
            simp [readPayloadFrom, hj, hge]
          rw [e1, streamFrom_cons_rgb _ _ _ hj, ih (j + 1) (m + 1), hstep]
          rw [show 32 - (j / 4 * 3 + min (j % 4) 3) =
              (32 - (j / 4 * 3 + min (j % 4) 3 + 1)) + 1 by omega]
          rw [List.drop_succ_cons]

/-! ### The encode loop -/

theorem encodeLoop_nil_bits (d : List Nat) (j : Nat) : encodeLoop d j [] = d := by
  match d with
  | [] => rfl
  | v :: rest => rfl

theorem encodeLoop_nil (j : Nat) (bits : List Nat) : encodeLoop [] j bits = [] := by
  match bits with
  | [] => rfl
  | b :: bs => rfl

theorem encodeLoop_length (d : List Nat) :
    ∀ j bits, (encodeLoop d j bits).length = d.length := by
  induction d with
  | nil => intro j bits; rw [encodeLoop_nil]
  | cons v rest ih =>
    intro j bits
    match bits with
    | [] => rw [encodeLoop_nil_bits]
    | b :: bs =>
      by_cases hj : j % 4 = 3
      · simp only [encodeLoop, hj, if_pos, List.length_cons]
        rw [ih (j + 1) (b :: bs)]
      · simp only [encodeLoop, hj, if_neg, if_false, List.length_cons]
        rw [ih (j + 1) bs]

theorem streamFrom_encodeLoop (d : List Nat) :
    ∀ j bits, (∀ v ∈ d, v < 256) → (∀ b ∈ bits, b ≤ 1) →
      streamFrom (encodeLoop d j bits) j =
        bits.take (streamFrom d j).length ++ (streamFrom d j).drop bits.length := by
  induction d with
  | nil =>
    intro j bits _ _
    rw [encodeLoop_nil]
    simp [streamFrom]
  | cons v rest ih =>
    intro j bits hd hb
    have hv : v < 256 := hd v (by simp)
    have hrest : ∀ x ∈ rest, x < 256 := fun x hx => hd x (by simp [hx])
    match bits with
    | [] =>
      rw [encodeLoop_nil_bits]
      simp
    | b :: bs =>
      have hb1 : b ≤ 1 := hb b (by simp)
      have hbs : ∀ x ∈ bs, x ≤ 1 := fun x hx => hb x (by simp [hx])
      by_cases hj : j % 4 = 3
      · simp only [encodeLoop, hj, if_pos, streamFrom]
        rw [ih (j + 1) (b :: bs) hrest hb]
      · simp only [encodeLoop, hj, if_neg, if_false, streamFrom]
        rw [ih (j + 1) bs hrest hbs]
        have hlsb : setLSB v b % 2 = b := by
          rw [setLSB_eq_of_lt v b hv (by omega)]
          omega
        simp only [hlsb, List.length_cons, List.take_succ_cons, List.length_cons,
          List.drop_succ_cons, List.cons_append]

/-! ### Composed facts about the decoder's two loops -/

theorem lsbStream_length (data : List Nat) :
    (lsbStream data).length = data.length - data.length / 4 := by
  rw [lsbStream, streamFrom_length]
  simp

theorem readBits_header (data : List Nat) (n : Nat) :
    readBitsFrom data 0 n = (lsbStream data).take n := by
  rw [readBitsFrom_eq_take, lsbStream]

theorem readPayload_stream (data : List Nat) (n : Nat) (h40 : 40 ≤ data.length) :
    readPayloadFrom (data.drop 40) 40 n = ((lsbStream data).drop 32).take n := by
  rw [readPayloadFrom_eq_drop_take]
  have hsplit : data = data.take 40 ++ data.drop 40 := (List.take_append_drop _ _).symm
  have htlen : (data.take 40).length = 40 := by
    simp
    omega
  have hstream : lsbStream data =
      streamFrom (data.take 40) 0 ++ streamFrom (data.drop 40) 40 := by
    conv_lhs => rw [lsbStream, hsplit]
    rw [streamFrom_append]
    rw [htlen]
  have hslen : (streamFrom (data.take 40) 0).length = 30 := by
    rw [streamFrom_length]
    simp [htlen]
  rw [show 32 - (40 / 4 * 3 + min (40 % 4) 3) = 2 by norm_num]
  rw [hstream]
  rw [show (32 : Nat) = 30 + 2 by norm_num, ← List.drop_drop]
  rw [List.drop_left' hslen]

theorem encodeMessage_fits (data : List Nat) (width height : Nat) (message : List Nat)
    (password : Option (List Nat))
    (hfit : ¬(((fullMessageOf message password ++ [0, 0, 0, 0]).length : Int) >
        calculateCapacity width height)) :
    encodeMessage data width height message password =
      (encodeLoop data 0 (padStartZeros 32 (natToBin message.length) ++
        stringToBinary (fullMessageOf message password ++ [0, 0, 0, 0])), none) := by
  simp only [encodeMessage]
  rw [if_neg hfit]

theorem encodeMessage_too_long (data : List Nat) (width height : Nat) (message : List Nat)
    (password : Option (List Nat))
    (hbig : ((fullMessageOf message password ++ [0, 0, 0, 0]).length : Int) >
        calculateCapacity width height) :
    encodeMessage data width height message password =
      (data, some ("Message too long. Maximum capacity: " ++
        toString (calculateCapacity width height) ++ " characters")) := by
  simp only [encodeMessage]
  rw [if_pos hbig]

/-- Core of both round-trip proofs: writing the frame of a byte message
`fm` (the possibly already-masked `fullMessage`) into a large enough byte
buffer makes the decoder's header read recover `fm.length` and its payload
read recover `fm` itself. -/
theorem roundtrip_core (data : List Nat) (w h : Nat) (fm : List Nat)
    (hdlen : data.length = w * h * 4) (hbytes : ∀ v ∈ data, v < 256)
    (hfm : ∀ c ∈ fm, c < 256) (hne : fm ≠ []) (hsize : fm.length ≤ 1000000)
    (hcap : 64 + 8 * (fm.length + 4) ≤ w * h * 3) :
    declaredLength (encodeLoop data 0 (padStartZeros 32 (natToBin fm.length) ++
        stringToBinary (fm ++ [0, 0, 0, 0]))) = fm.length ∧
      rawMessage (encodeLoop data 0 (padStartZeros 32 (natToBin fm.length) ++
        stringToBinary (fm ++ [0, 0, 0, 0]))) = fm := by
  set lenBits := padStartZeros 32 (natToBin fm.length) with hlenBits_def
  set msgBits := stringToBinary (fm ++ [0, 0, 0, 0]) with hmsgBits_def
  set encoded := encodeLoop data 0 (lenBits ++ msgBits) with hencdef
  have hfmd : ∀ c ∈ fm ++ [0, 0, 0, 0], c < 256 := by
    intro c hc
    rcases List.mem_append.1 hc with hc | hc
    · exact hfm c hc
    · simp at hc
      omega
  have hlenBits_len : lenBits.length = 32 := by
    rw [hlenBits_def]
    refine padStartZeros_length 32 _ (natToBin_length_le _ 32 (by omega) ?_)
    have : (1000000 : Nat) < 2 ^ 32 := by norm_num
    omega
  have hmsgBits_len : msgBits.length = 8 * (fm.length + 4) := by
    rw [hmsgBits_def, stringToBinary_length _ hfmd]
    simp
  have hbits_le : ∀ b ∈ lenBits ++ msgBits, b ≤ 1 := by
    intro b hb
    rcases List.mem_append.1 hb with hb | hb
    · exact padStartZeros_le_one _ _ (natToBin_le_one _) b hb
    · exact stringToBinary_le_one _ b hb
  have hstream_data_len : (lsbStream data).length = 3 * (w * h) := by
    rw [lsbStream_length]
    omega
  have hfit : (lenBits ++ msgBits).length ≤ (lsbStream data).length := by
    simp only [List.length_append, hlenBits_len, hmsgBits_len, hstream_data_len]
    omega
  have hstream : lsbStream encoded = (lenBits ++ msgBits) ++ (lsbStream data).drop
      (lenBits ++ msgBits).length := by
    rw [hencdef, lsbStream, streamFrom_encodeLoop data 0 _ hbytes hbits_le,
      ← lsbStream]
    rw [List.take_of_length_le hfit]
  have hfm_pos : 1 ≤ fm.length := by
    rcases fm with _ | ⟨c, rest⟩
    · exact absurd rfl hne
    · simp
  have henclen : encoded.length = data.length := by
    rw [hencdef]
    exact encodeLoop_length data 0 _
  have h40 : 40 ≤ encoded.length := by
    rw [henclen]
    omega
  have hstream32 : (lsbStream encoded).take 32 = lenBits := by
    rw [hstream, List.append_assoc]
    exact List.take_left' hlenBits_len
  have hheader : declaredLength encoded = fm.length := by
    rw [declaredLength, readBits_header, hstream32, hlenBits_def,
      binVal_padStartZeros, binVal_natToBin]
  refine ⟨hheader, ?_⟩
  have hdrop32 : (lsbStream encoded).drop 32 = msgBits ++ (lsbStream data).drop
      (lenBits ++ msgBits).length := by
    rw [hstream, List.append_assoc]
    exact List.drop_left' hlenBits_len
  have hsb_fm_len : (stringToBinary fm).length = 8 * fm.length :=
    stringToBinary_length fm hfm
  have hpayload : ((lsbStream encoded).drop 32).take (fm.length * 8) = stringToBinary fm := by
    rw [hdrop32, hmsgBits_def, stringToBinary_append, List.append_assoc]
    exact List.take_left' (by omega)
  rw [rawMessage, show (32 / 3) * 4 = 40 by norm_num, hheader,
    readPayload_stream encoded _ h40, hpayload]
  exact binaryToString_stringToBinary fm hfm

theorem calculateCapacity_eq_ediv (width height : Nat) :
    calculateCapacity width height = ((width : Int) * height * 3 - 64) / 8 := by
  rw [calculateCapacity]
  exact Int.fdiv_eq_ediv _ (by omega)

theorem decodeMessage_some (data : List Nat) (pw : Option (List Nat))
    (h1 : ¬(declaredLength data ≤ 0 ∨ declaredLength data > 1000000))
    (h3 : finalMessage data pw ≠ []) :
    decodeMessage data pw = some (finalMessage data pw) := by
  unfold decodeMessage
  rw [if_neg h1, if_pos (List.length_pos.2 h3)]

theorem fullMessageOf_some_ne (m p : List Nat) (hp : p ≠ []) :
    fullMessageOf m (some p) = maskFrom (simpleHash p) 0 m := by
  simp [fullMessageOf, hp]

theorem finalMessage_some_ne (data : List Nat) (p : List Nat) (hp : p ≠ []) :
    finalMessage data (some p) = maskFrom (simpleHash p) 0 (rawMessage data) := by
  simp [finalMessage, hp]

/-! ### The claims -/

/-- C1, counterexample to the claim as stated: the buffer
`List.replicate 96 0` is a 6×4 pixel buffer with `width*height*3 = 72 ≥
64 + 8*len("A")`, yet encoding the printable-ASCII message `"A"` (code 65)
with no password throws (`capacity` is 1 but the delimiter-appended length
5 is compared against it), so decoding the exit buffer does not return the
message. -/
theorem c1_counterexample :
    ¬((encodeMessage (List.replicate 96 0) 6 4 [65] none).2 = none ∧
      decodeMessage (encodeMessage (List.replicate 96 0) 6 4 [65] none).1 none = some [65]) := by
  decide

/-- C1 (amended): for every 4-channel byte pixel buffer with
`width*height*3 ≥ 64 + 8*(len(m) + 4)` — room for the frame including the
4-byte delimiter, which the source's capacity check counts — and every
nonempty printable-ASCII message `m` with `len(m) ≤ 1000000`, encoding `m`
with no password succeeds and decoding the result with no password returns
exactly `m`. -/
theorem c1_roundtrip_no_password (data : List Nat) (w h : Nat) (m : List Nat)
    (hdlen : data.length = w * h * 4) (hbytes : ∀ v ∈ data, v < 256)
    (hascii : ∀ c ∈ m, 32 ≤ c ∧ c ≤ 126) (hne : m ≠ [])
    (hsize : m.length ≤ 1000000) (hcap : 64 + 8 * (m.length + 4) ≤ w * h * 3) :
    (encodeMessage data w h m none).2 = none ∧
      decodeMessage (encodeMessage data w h m none).1 none = some m := by
  have hm256 : ∀ c ∈ m, c < 256 := fun c hc => by
    have := hascii c hc
    omega
  have hfull : fullMessageOf m none = m := rfl
  have hcapInt : ¬(((fullMessageOf m none ++ [0, 0, 0, 0]).length : Int) >
      calculateCapacity w h) := by
    rw [hfull, calculateCapacity_eq_ediv]
    simp only [List.length_append, List.length_cons, List.length_nil]
    push_cast
    omega
  rw [encodeMessage_fits data w h m none hcapInt, hfull]
  obtain ⟨hdecl, hraw⟩ := roundtrip_core data w h m hdlen hbytes hm256 hne hsize hcap
  refine ⟨rfl, ?_⟩
  have hfin : finalMessage (encodeLoop data 0 (padStartZeros 32 (natToBin m.length) ++
      stringToBinary (m ++ [0, 0, 0, 0]))) none = m := hraw
  rw [decodeMessage_some _ none (by rw [hdecl]; rcases m with _ | _ <;> simp_all) (by
    rw [hfin]; exact hne), hfin]

set_option maxRecDepth 100000 in
/-- C1 witness: the amended round-trip instantiated on a 10×10 all-`7`
buffer and the message `"hi"`. -/
theorem c1_witness :
    (List.replicate 400 7).length = 10 * 10 * 4 ∧
      (encodeMessage (List.replicate 400 7) 10 10 [104, 105] none).2 = none ∧
      decodeMessage (encodeMessage (List.replicate 400 7) 10 10 [104, 105] none).1 none =
        some [104, 105] :=
  ⟨by decide, c1_roundtrip_no_password (List.replicate 400 7) 10 10 [104, 105]
    (by decide) (by decide) (by decide) (by decide) (by decide) (by decide)⟩

/-- C2, counterexample to the claim as stated: with the same 6×4 buffer and
message `"A"` satisfying `width*height*3 ≥ 64 + 8*len(m)`, and the
non-empty password `"a"`, encode throws for the same reason, so the
password round-trip fails at this input. -/
theorem c2_counterexample :
    ¬((encodeMessage (List.replicate 96 0) 6 4 [65] (some [97])).2 = none ∧
      decodeMessage (encodeMessage (List.replicate 96 0) 6 4 [65] (some [97])).1
        (some [97]) = some [65]) := by
  decide

/-- C2 (amended): for every 4-channel byte pixel buffer with
`width*height*3 ≥ 64 + 8*(len(m) + 4)`, every nonempty printable-ASCII
message `m` with `len(m) ≤ 1000000`, and every non-empty password `p`,
encoding with `p` succeeds and decoding with the same `p` returns exactly
`m`: the per-byte XOR mask keyed by `(simpleHash(p) + index) mod 256` is
its own inverse. -/
theorem c2_roundtrip_password (data : List Nat) (w h : Nat) (m p : List Nat)
    (hdlen : data.length = w * h * 4) (hbytes : ∀ v ∈ data, v < 256)
    (hascii : ∀ c ∈ m, 32 ≤ c ∧ c ≤ 126) (hne : m ≠ []) (hp : p ≠ [])
    (hsize : m.length ≤ 1000000) (hcap : 64 + 8 * (m.length + 4) ≤ w * h * 3) :
    (encodeMessage data w h m (some p)).2 = none ∧
      decodeMessage (encodeMessage data w h m (some p)).1 (some p) = some m := by
  have hm256 : ∀ c ∈ m, c < 256 := fun c hc => by
    have := hascii c hc
    omega
  set key := simpleHash p with hkey
  set fm := maskFrom key 0 m with hfm_def
  have hfull : fullMessageOf m (some p) = fm := fullMessageOf_some_ne m p hp
  have hfm_len : fm.length = m.length := maskFrom_length key 0 m
  have hfm256 : ∀ c ∈ fm, c < 256 := maskFrom_lt key 0 m hm256
  have hfm_ne : fm ≠ [] := by
    intro hcon
    have := congrArg List.length hcon
    rw [hfm_len] at this
    exact hne (List.length_eq_zero.1 (by simpa using this))
  have hcapInt : ¬(((fullMessageOf m (some p) ++ [0, 0, 0, 0]).length : Int) >
      calculateCapacity w h) := by
    rw [hfull, calculateCapacity_eq_ediv]
    simp only [List.length_append, List.length_cons, List.length_nil, hfm_len]
    push_cast
    omega
  rw [encodeMessage_fits data w h m (some p) hcapInt, hfull]
  have hlen_eq : natToBin m.length = natToBin fm.length := by rw [hfm_len]
  rw [hlen_eq]
  obtain ⟨hdecl, hraw⟩ := roundtrip_core data w h fm hdlen hbytes hfm256 hfm_ne
    (by omega) (by omega)
  refine ⟨rfl, ?_⟩
  set encoded := encodeLoop data 0 (padStartZeros 32 (natToBin fm.length) ++
    stringToBinary (fm ++ [0, 0, 0, 0])) with henc
  have hfin : finalMessage encoded (some p) = m := by
    rw [finalMessage_some_ne encoded p hp, hraw, ← hkey, hfm_def, maskFrom_involutive]
  rw [decodeMessage_some encoded (some p) (by rw [hdecl, hfm_len]; rcases m with _ | _ <;> simp_all)
    (by rw [hfin]; exact hne), hfin]

set_option maxRecDepth 100000 in
/-- C2 witness: the amended password round-trip instantiated on a 10×10
all-`7` buffer, message `"hi"`, password `"a"`. -/
theorem c2_witness :
    (List.replicate 400 7).length = 10 * 10 * 4 ∧
      (encodeMessage (List.replicate 400 7) 10 10 [104, 105] (some [97])).2 = none ∧
      decodeMessage (encodeMessage (List.replicate 400 7) 10 10 [104, 105] (some [97])).1
        (some [97]) = some [104, 105] :=
  ⟨by decide, c2_roundtrip_password (List.replicate 400 7) 10 10 [104, 105] [97]
    (by decide) (by decide) (by decide) (by decide) (by decide) (by decide) (by decide)⟩

set_option maxRecDepth 100000 in
/-- C3, counterexample to the claim as stated: on a 10×10 image
(`capacity = 29`) the 29-character message `"aaa…a"` has exactly
`m.length = capacity`, so the claim says encode succeeds — but the source
compares the delimiter-appended length 33 against 29 and throws. -/
theorem c3_counterexample :
    ¬((encodeMessage (List.replicate 400 0) 10 10 (List.replicate 29 97) none).2 = none) := by
  decide

/-- C3 (amended): for every width, height, message and optional password,
encode raises `CapacityExceeded` exactly when `m.length + 4 >
capacity(width, height)`: the check compares the length of the
delimiter-appended (masked) message — which equals the original character
count plus 4 — against capacity, so the boundary success point is
`m.length = capacity - 4`, and encode fails at `m.length = capacity`. -/
theorem c3_capacity_check (data : List Nat) (w h : Nat) (m : List Nat)
    (pw : Option (List Nat)) :
    (encodeMessage data w h m pw).2 ≠ none ↔
      ((m.length : Int) + 4 > calculateCapacity w h) := by
  have hlen : ((fullMessageOf m pw ++ [0, 0, 0, 0]).length : Int) = (m.length : Int) + 4 := by
    simp [fullMessageOf_length]
  by_cases hc : ((fullMessageOf m pw ++ [0, 0, 0, 0]).length : Int) > calculateCapacity w h
  · rw [encodeMessage_too_long data w h m pw hc]
    rw [hlen] at hc
    exact ⟨fun _ => hc, fun _ hco => Option.noConfusion hco⟩
  · rw [encodeMessage_fits data w h m pw hc]
    rw [hlen] at hc
    exact ⟨fun hf => absurd rfl hf, fun hgt => absurd hgt hc⟩

/-- C4: whenever encode fails (the thrown `CapacityExceeded`), the pixel
buffer is completely unchanged: the capacity check runs before the write
loop, so the failure path performs no writes (all-or-nothing encode). -/
theorem c4_all_or_nothing (data : List Nat) (w h : Nat) (m : List Nat)
    (pw : Option (List Nat)) (hfail : (encodeMessage data w h m pw).2 ≠ none) :
    (encodeMessage data w h m pw).1 = data := by
  by_cases hc : ((fullMessageOf m pw ++ [0, 0, 0, 0]).length : Int) > calculateCapacity w h
  · rw [encodeMessage_too_long data w h m pw hc]
  · rw [encodeMessage_fits data w h m pw hc] at hfail
    exact absurd rfl hfail

set_option maxRecDepth 100000 in
/-- C4 witness: the spec's own concrete scenario — a 10×10 image and a
30-character message — fails with `CapacityExceeded` and leaves the buffer
untouched. -/
theorem c4_witness :
    (encodeMessage (List.replicate 400 5) 10 10 (List.replicate 30 97) none).2 ≠ none ∧
      (encodeMessage (List.replicate 400 5) 10 10 (List.replicate 30 97) none).1 =
        List.replicate 400 5 :=
  ⟨by decide, c4_all_or_nothing (List.replicate 400 5) 10 10 (List.replicate 30 97) none
    (by decide)⟩

/-- C5: decode returns `null` (`NotFound`) exactly when the declared
length read from the first LSBs is `≤ 0` or `> 1000000`, or when the final
decoded (and, with a password, unmasked) string is empty; in every other
case it returns the decoded message. -/
theorem c5_decode_outcomes (data : List Nat) (pw : Option (List Nat)) :
    decodeMessage data pw =
      if declaredLength data ≤ 0 ∨ declaredLength data > 1000000 ∨
          finalMessage data pw = [] then none
      else some (finalMessage data pw) := by
  unfold decodeMessage
  by_cases h1 : declaredLength data ≤ 0 ∨ declaredLength data > 1000000
  · rw [if_pos h1, if_pos (by tauto)]
  · rw [if_neg h1]
    by_cases h2 : finalMessage data pw = []
    · have hlen0 : ¬0 < (finalMessage data pw).length := by simp [h2]
      rw [if_neg hlen0, if_pos (Or.inr (Or.inr h2))]
    · have hlenpos : 0 < (finalMessage data pw).length := List.length_pos.2 h2
      have hcond : ¬(declaredLength data ≤ 0 ∨ declaredLength data > 1000000 ∨
          finalMessage data pw = []) := by
        intro hor
        rcases hor with hh | hh | hh
        · exact h1 (Or.inl hh)
        · exact h1 (Or.inr hh)
        · exact h2 hh
      rw [if_pos hlenpos, if_neg hcond]

theorem frameBits_le_one (len : Nat) (s : List Nat) :
    ∀ b ∈ padStartZeros 32 (natToBin len) ++ stringToBinary s, b ≤ 1 := by
  intro b hb
  rcases List.mem_append.1 hb with hb | hb
  · exact padStartZeros_le_one _ _ (natToBin_le_one _) b hb
  · exact stringToBinary_le_one _ b hb

theorem encodeLoop_getD (d : List Nat) :
    ∀ j bits i, (∀ v ∈ d, v < 256) → (∀ b ∈ bits, b ≤ 1) →
      ((j + i) % 4 = 3 → (encodeLoop d j bits).getD i 0 = d.getD i 0) ∧
        (encodeLoop d j bits).getD i 0 / 2 = d.getD i 0 / 2 := by
  induction d with
  | nil =>
    intro j bits i _ _
    rw [encodeLoop_nil]
    exact ⟨fun _ => rfl, rfl⟩
  | cons v rest ih =>
    intro j bits i hd hb
    have hrest : ∀ x ∈ rest, x < 256 := fun x hx => hd x (by simp [hx])
    match bits with
    | [] =>
      rw [encodeLoop_nil_bits]
      exact ⟨fun _ => rfl, rfl⟩
    | b :: bs =>
      have hb1 : b ≤ 1 := hb b (by simp)
      have hbs : ∀ x ∈ bs, x ≤ 1 := fun x hx => hb x (by simp [hx])
      by_cases hj : j % 4 = 3
      · have e : encodeLoop (v :: rest) j (b :: bs) = v :: encodeLoop rest (j + 1) (b :: bs) := by
          simp [encodeLoop, hj]
        rw [e]
        match i with
        | 0 => exact ⟨fun _ => rfl, rfl⟩
        | k + 1 =>
          simp only [List.getD_cons_succ]
          have hkey := ih (j + 1) (b :: bs) k hrest hb
          exact ⟨fun halpha => hkey.1 (by omega), hkey.2⟩
      · have e : encodeLoop (v :: rest) j (b :: bs) =
            setLSB v b :: encodeLoop rest (j + 1) bs := by
          simp [encodeLoop, hj]
        rw [e]
        match i with
        | 0 =>
          simp only [List.getD_cons_zero]
          refine ⟨fun halpha => absurd (by omega : j % 4 = 3) hj, ?_⟩
          rw [setLSB_eq_of_lt v b (hd v (by simp)) (by omega)]
          omega
        | k + 1 =>
          simp only [List.getD_cons_succ]
          have hkey := ih (j + 1) bs k hrest hbs
          exact ⟨fun halpha => hkey.1 (by omega), hkey.2⟩

/-- C6: for every byte pixel buffer, encode leaves the buffer's length and
every alpha-channel sample (index `i` with `i % 4 = 3`) bit-for-bit
identical, and changes at most the least-significant bit of every sample
(the upper 7 bits, `value / 2`, are unchanged everywhere). -/
theorem c6_alpha_and_upper_bits (data : List Nat) (w h : Nat) (m : List Nat)
    (pw : Option (List Nat)) (hbytes : ∀ v ∈ data, v < 256) :
    ((encodeMessage data w h m pw).1).length = data.length ∧
      ∀ i, (i % 4 = 3 → ((encodeMessage data w h m pw).1).getD i 0 = data.getD i 0) ∧
        ((encodeMessage data w h m pw).1).getD i 0 / 2 = data.getD i 0 / 2 := by
  by_cases hc : ((fullMessageOf m pw ++ [0, 0, 0, 0]).length : Int) > calculateCapacity w h
  · rw [encodeMessage_too_long data w h m pw hc]
    exact ⟨rfl, fun i => ⟨fun _ => rfl, rfl⟩⟩
  · rw [encodeMessage_fits data w h m pw hc]
    refine ⟨encodeLoop_length data 0 _, fun i => ?_⟩
    have hkey := encodeLoop_getD data 0
      (padStartZeros 32 (natToBin m.length) ++ stringToBinary (fullMessageOf m pw ++ [0, 0, 0, 0]))
      i hbytes (frameBits_le_one _ _)
    exact ⟨fun halpha => hkey.1 (by omega), hkey.2⟩

/-- C6 witness: a 2×1 byte buffer; encoding `"A"` preserves the length,
the alpha samples, and the upper 7 bits of every sample. -/
theorem c6_witness :
    (∀ v ∈ [10, 20, 30, 40, 50, 60, 70, 80], v < 256) ∧
      (((encodeMessage [10, 20, 30, 40, 50, 60, 70, 80] 2 1 [65] none).1).length =
          ([10, 20, 30, 40, 50, 60, 70, 80] : List Nat).length ∧
        ∀ i, (i % 4 = 3 →
            ((encodeMessage [10, 20, 30, 40, 50, 60, 70, 80] 2 1 [65] none).1).getD i 0 =
              ([10, 20, 30, 40, 50, 60, 70, 80] : List Nat).getD i 0) ∧
          ((encodeMessage [10, 20, 30, 40, 50, 60, 70, 80] 2 1 [65] none).1).getD i 0 / 2 =
            ([10, 20, 30, 40, 50, 60, 70, 80] : List Nat).getD i 0 / 2) :=
  ⟨by decide, c6_alpha_and_upper_bits [10, 20, 30, 40, 50, 60, 70, 80] 2 1 [65] none
    (by decide)⟩

/-- C7, counterexample to the claim as stated: `calculateCapacity(0, 0)`
is `Math.floor(-64 / 8) = -8`, not the claimed clamped value `0`. -/
theorem c7_counterexample :
    calculateCapacity 0 0 = -8 ∧ calculateCapacity 0 0 ≠ 0 := by
  decide

/-- C7 (amended): for all non-negative width and height,
`capacity(width, height)` equals `floor((width*height*3 - 64) / 8)` with
no clamping: for zero or tiny dimensions (`width*height*3 < 64`) it
returns a negative value (never a failure), not `0`. -/
theorem c7_capacity_formula (w h : Nat) :
    calculateCapacity w h = Int.fdiv ((w : Int) * h * 3 - 64) 8 ∧
      ((w * h * 3 : Nat) < 64 → calculateCapacity w h < 0) := by
  refine ⟨rfl, fun hsmall => ?_⟩
  rw [calculateCapacity_eq_ediv]
  have : ((w * h * 3 : Nat) : Int) < 64 := by exact_mod_cast hsmall
  push_cast at this ⊢
  omega

/-- C7 witness: a 1×1 image has `3 < 64` usable bits and a negative
capacity. -/
theorem c7_witness :
    (1 * 1 * 3 : Nat) < 64 ∧ calculateCapacity 1 1 < 0 :=
  ⟨by decide, (c7_capacity_formula 1 1).2 (by decide)⟩

/-- C8: during decode, the header is read from stream positions 0–31 of
the R/G/B LSB bit-stream (channels R,G,B per pixel, alpha skipped,
row-major order), and the payload read — started at sample index
`Math.floor(32/3)*4` with the `globalBitIndex ≥ 32` filter — collects
precisely stream positions 32 through `32 + 8*L - 1`, in order, with no
bit skipped and no bit read twice between header and payload. -/
theorem c8_stream_positions (data : List Nat) (L : Nat)
    (hlen : 32 + 8 * L ≤ (lsbStream data).length) :
    readBitsFrom data 0 32 = (lsbStream data).take 32 ∧
      readPayloadFrom (data.drop ((32 / 3) * 4)) ((32 / 3) * 4) (L * 8) =
        ((lsbStream data).drop 32).take (L * 8) := by
  refine ⟨readBits_header data 32, ?_⟩
  have h40 : 40 ≤ data.length := by
    rw [lsbStream_length] at hlen
    omega
  rw [show (32 / 3) * 4 = 40 by norm_num]
  exact readPayload_stream data (L * 8) h40

/-- C8 witness: a 14-pixel buffer of samples `3`, declared length 1. -/
theorem c8_witness :
    32 + 8 * 1 ≤ (lsbStream (List.replicate 56 3)).length ∧
      (readBitsFrom (List.replicate 56 3) 0 32 = (lsbStream (List.replicate 56 3)).take 32 ∧
        readPayloadFrom ((List.replicate 56 3).drop ((32 / 3) * 4)) ((32 / 3) * 4) (1 * 8) =
          ((lsbStream (List.replicate 56 3)).drop 32).take (1 * 8)) :=
  ⟨by decide, c8_stream_positions (List.replicate 56 3) 1 (by decide)⟩

/-- C9, counterexample to the claim as stated: the trailing partial group
`"101"` is parsed by `parseInt("101", 2)` as the byte 5, not as the
right-zero-padded `"10100000"` = 160 the claim describes. -/
theorem c9_counterexample :
    binaryToString [1, 0, 1] = [5] ∧ ¬binaryToString [1, 0, 1] = [160] := by
  decide

theorem chunks8_short (l : List Nat) (hne : l ≠ []) (hlen : l.length ≤ 8) :
    chunks8 l = [l] := by
  unfold chunks8
  match l, hne with
  | x :: xs, _ =>
    rw [show (x :: xs).length = xs.length + 1 from rfl, chunks8Aux_succ _ _ (by simp)]
    rw [List.take_of_length_le (by simpa using hlen), List.drop_of_length_le (by simpa using hlen)]
    rw [chunks8Aux_nil]

/-- C9 (amended): when the bit sequence given to `binaryToString` has a
trailing partial group of fewer than 8 bits, that group is interpreted as
if zero-padded on the left — the partial bits become the
least-significant bits of the final byte, whose value is its plain binary
value, below `2^k` for a `k`-bit group; full groups of 8 bits convert
MSB-first as usual. -/
theorem c9_partial_group (bytes tail : List Nat) (hbytes : ∀ c ∈ bytes, c < 256)
    (htail1 : ∀ b ∈ tail, b ≤ 1) (htne : tail ≠ []) (htlen : tail.length < 8) :
    binaryToString (stringToBinary bytes ++ tail) = bytes ++ [binVal tail] ∧
      binVal tail < 2 ^ tail.length := by
  refine ⟨?_, binVal_lt_two_pow tail htail1⟩
  induction bytes with
  | nil =>
    rw [show stringToBinary [] ++ tail = tail by simp [stringToBinary]]
    rw [binaryToString, chunks8_short tail htne (by omega)]
    simp
  | cons c rest ih =>
    have hc : c < 256 := hbytes c (by simp)
    have hrest : ∀ x ∈ rest, x < 256 := fun x hx => hbytes x (by simp [hx])
    have hsplit : stringToBinary (c :: rest) ++ tail =
        charBits c ++ (stringToBinary rest ++ tail) := by
      simp [stringToBinary]
    rw [hsplit, binaryToString, chunks8_cons8 _ _ (charBits_length c hc), List.map_cons,
      binVal_charBits]
    have := ih hrest
    rw [binaryToString] at this
    rw [this]
    rfl

/-- C9 witness: one full byte (`"A"`) followed by the 3-bit partial group
`"101"` decodes to `[65, 5]`, and `5 < 2^3`. -/
theorem c9_witness :
    (∀ c ∈ [65], c < 256) ∧ (∀ b ∈ [1, 0, 1], b ≤ 1) ∧
      (binaryToString (stringToBinary [65] ++ [1, 0, 1]) = [65] ++ [binVal [1, 0, 1]] ∧
        binVal [1, 0, 1] < 2 ^ ([1, 0, 1] : List Nat).length) :=
  ⟨by decide, by decide,
    c9_partial_group [65] [1, 0, 1] (by decide) (by decide) (by decide) (by decide)⟩

/-- C10: for every pixel buffer and message, encoding with the
empty-string password produces exactly the same result (buffer and error
outcome) as encoding with no password, and decoding with the empty-string
password returns exactly the same result as decoding with no password:
`if (password)` is false for both, so the masking step is skipped. -/
theorem c10_empty_password (data : List Nat) (w h : Nat) (m : List Nat) :
    encodeMessage data w h m (some []) = encodeMessage data w h m none ∧
      decodeMessage data (some []) = decodeMessage data none :=
  ⟨rfl, rfl⟩

end Stegano
